import Mathlib

/-!
Verification of the SPAKE2-over-Ed25519 core of this repository against its
natural-language specification.

The field and curve layer is a shallow embedding of
`android/src/main/cpp/ed25519.c`.  The `fiat_25519_*` limb-level primitives
(`curve25519_32.h`) are not part of the repository sources, so they are
modelled by their specified value-level contracts over `GF(2^255 - 19)`;
every function of `ed25519.c` is then translated one call at a time.
A 32-byte little-endian string is identified with its numeric value,
a natural number below `2^256`.
-/

set_option maxRecDepth 100000
set_option maxHeartbeats 1000000

namespace Spake2Proof

/-- The field prime `p = 2^255 - 19` of Curve25519 / Ed25519. -/
def P : ℕ := 2 ^ 255 - 19

instance : NeZero P := ⟨by decide⟩

instance : Fact (1 < P) := ⟨by norm_num [P]⟩

/-- Field elements of `GF(p)`.  The source keeps two limb flavours
(`fe` tight, `fe_loose` loose) of the same mathematical value; the value-level
model uses a single type for both. -/
abbrev Fe := ZMod P

/-- Fuel-indexed binary modular exponentiation, used to evaluate the huge
powers appearing in the Lucas primality certificates inside the kernel. -/
def powModAux (n : ℕ) : ℕ → ℕ → ℕ → ℕ
  | 0, _, _ => 1 % n
  | f + 1, a, e =>
    if e = 0 then 1 % n
    else
      let r := powModAux n f (a * a % n) (e / 2)
      if e % 2 = 1 then r * a % n else r

theorem powModAux_lt (n : ℕ) (hn : 0 < n) :
    ∀ (f a e : ℕ), powModAux n f a e < n := by
  intro f
  induction f with
  | zero => intro a e; simpa [powModAux] using Nat.mod_lt _ hn
  | succ f ih =>
    intro a e
    by_cases h0 : e = 0
    · simpa [powModAux, h0] using Nat.mod_lt _ hn
    · by_cases h1 : e % 2 = 1
      · simpa [powModAux, h0, h1] using Nat.mod_lt _ hn
      · simpa [powModAux, h0, h1] using ih (a * a % n) (e / 2)

theorem powModAux_spec (n : ℕ) :
    ∀ (f a e : ℕ), e < 2 ^ f →
      ((powModAux n f a e : ℕ) : ZMod n) = (a : ZMod n) ^ e := by
  intro f
  induction f with
  | zero =>
    intro a e he
    have h0 : e = 0 := by omega
    subst h0
    simp [powModAux, ZMod.natCast_mod]
  | succ f ih =>
    intro a e he
    by_cases h0 : e = 0
    · subst h0
      simp [powModAux, ZMod.natCast_mod]
    · have hpow : (2 : ℕ) ^ (f + 1) = 2 * 2 ^ f := by
        rw [pow_succ]; ring
      have he2 : e / 2 < 2 ^ f := by omega
      have hrec := ih (a * a % n) (e / 2) he2
      have hmul : (((a * a % n : ℕ) : ZMod n)) = (a : ZMod n) * (a : ZMod n) := by
        rw [ZMod.natCast_mod]
        push_cast
        ring
      by_cases h1 : e % 2 = 1
      · have edecomp : e = 2 * (e / 2) + 1 := by omega
        simp only [powModAux, h0, if_false, h1, if_true]
        rw [ZMod.natCast_mod]
        push_cast
        rw [hrec, hmul]
        conv_rhs => rw [edecomp]
        rw [pow_add, pow_mul, pow_one, pow_two]
      · have edecomp : e = 2 * (e / 2) := by omega
        simp only [powModAux, h0, if_false, h1, if_false]
        rw [hrec, hmul]
        conv_rhs => rw [edecomp]
        rw [pow_mul, pow_two]


theorem powModEqOne {p a e f : ℕ} (hp : 1 < p) (hf : e < 2 ^ f)
    (h : powModAux p f a e = 1) : ((a : ℕ) : ZMod p) ^ e = 1 := by
  rw [← powModAux_spec p f a e hf, h, Nat.cast_one]

theorem powModNeOne {p a e f : ℕ} (hp : 1 < p) (hf : e < 2 ^ f)
    (h : powModAux p f a e ≠ 1) : ((a : ℕ) : ZMod p) ^ e ≠ 1 := by
  haveI : NeZero p := ⟨by omega⟩
  haveI : Fact (1 < p) := ⟨hp⟩
  intro hcon
  rw [← powModAux_spec p f a e hf] at hcon
  have hv := congrArg ZMod.val hcon
  rw [ZMod.val_natCast_of_lt (powModAux_lt p (by omega) f a e), ZMod.val_one p] at hv
  exact h hv

theorem prime_2 : Nat.Prime 2 := by norm_num

theorem prime_3 : Nat.Prime 3 := by norm_num

theorem prime_5 : Nat.Prime 5 := by norm_num

theorem prime_7 : Nat.Prime 7 := by norm_num

theorem prime_13 : Nat.Prime 13 := by norm_num

theorem prime_19 : Nat.Prime 19 := by norm_num

theorem prime_31 : Nat.Prime 31 := by norm_num

theorem prime_47 : Nat.Prime 47 := by norm_num

theorem prime_107 : Nat.Prime 107 := by norm_num

theorem prime_127 : Nat.Prime 127 := by norm_num

theorem prime_223 : Nat.Prime 223 := by norm_num

theorem prime_353 : Nat.Prime 353 := by norm_num

theorem prime_2437 : Nat.Prime 2437 := by norm_num

theorem prime_4153 : Nat.Prime 4153 := by norm_num

theorem prime_57467 : Nat.Prime 57467 := by norm_num

theorem prime_65147 : Nat.Prime 65147 := by norm_num

theorem prime_75707 : Nat.Prime 75707 := by norm_num

theorem prime_132049 : Nat.Prime 132049 := by norm_num

theorem prime_430751 : Nat.Prime 430751 := by norm_num

theorem prime_569003 : Nat.Prime 569003 := by norm_num

theorem prime_1923133 : Nat.Prime 1923133 := by norm_num

theorem prime_8574133 : Nat.Prime 8574133 := by norm_num

theorem prime_2773320623 : Nat.Prime 2773320623 := by
  have hfac : 2773320623 - 1 = 2 * (2437 * (569003)) := by norm_num
  refine lucas_primality 2773320623 ((5 : ℕ) : ZMod 2773320623) ?_ ?_
  · exact powModEqOne (f := 34) (by norm_num) (by norm_num) (by decide)
  · intro q hq hdvd
    rw [hfac] at hdvd
    rcases (Nat.Prime.dvd_mul hq).mp hdvd with h | hdvd
    · have hqe : q = 2 := (Nat.prime_dvd_prime_iff_eq hq prime_2).mp h
      subst hqe
      exact powModNeOne (f := 34) (by norm_num) (by norm_num) (by decide)
    rcases (Nat.Prime.dvd_mul hq).mp hdvd with h | hdvd
    · have hqe : q = 2437 := (Nat.prime_dvd_prime_iff_eq hq prime_2437).mp h
      subst hqe
      exact powModNeOne (f := 34) (by norm_num) (by norm_num) (by decide)
    have h := hdvd
    have hqe : q = 569003 := (Nat.prime_dvd_prime_iff_eq hq prime_569003).mp h
    subst hqe
    exact powModNeOne (f := 34) (by norm_num) (by norm_num) (by decide)

theorem prime_72106336199 : Nat.Prime 72106336199 := by
  have hfac : 72106336199 - 1 = 2 * (13 * (2773320623)) := by norm_num
  refine lucas_primality 72106336199 ((7 : ℕ) : ZMod 72106336199) ?_ ?_
  · exact powModEqOne (f := 39) (by norm_num) (by norm_num) (by decide)
  · intro q hq hdvd
    rw [hfac] at hdvd
    rcases (Nat.Prime.dvd_mul hq).mp hdvd with h | hdvd
    · have hqe : q = 2 := (Nat.prime_dvd_prime_iff_eq hq prime_2).mp h
      subst hqe
      exact powModNeOne (f := 39) (by norm_num) (by norm_num) (by decide)
    rcases (Nat.Prime.dvd_mul hq).mp hdvd with h | hdvd
    · have hqe : q = 13 := (Nat.prime_dvd_prime_iff_eq hq prime_13).mp h
      subst hqe
      exact powModNeOne (f := 39) (by norm_num) (by norm_num) (by decide)
    have h := hdvd
    have hqe : q = 2773320623 := (Nat.prime_dvd_prime_iff_eq hq prime_2773320623).mp h
    subst hqe
    exact powModNeOne (f := 39) (by norm_num) (by norm_num) (by decide)

theorem prime_1919519569386763 : Nat.Prime 1919519569386763 := by
  have hfac : 1919519569386763 - 1 = 2 * (3 * (7 * (19 * (47 ^ 2 * (127 * (8574133)))))) := by norm_num
  refine lucas_primality 1919519569386763 ((2 : ℕ) : ZMod 1919519569386763) ?_ ?_
  · exact powModEqOne (f := 53) (by norm_num) (by norm_num) (by decide)
  · intro q hq hdvd
    rw [hfac] at hdvd
    rcases (Nat.Prime.dvd_mul hq).mp hdvd with h | hdvd
    · have hqe : q = 2 := (Nat.prime_dvd_prime_iff_eq hq prime_2).mp h
      subst hqe
      exact powModNeOne (f := 53) (by norm_num) (by norm_num) (by decide)
    rcases (Nat.Prime.dvd_mul hq).mp hdvd with h | hdvd
    · have hqe : q = 3 := (Nat.prime_dvd_prime_iff_eq hq prime_3).mp h
      subst hqe
      exact powModNeOne (f := 53) (by norm_num) (by norm_num) (by decide)
    rcases (Nat.Prime.dvd_mul hq).mp hdvd with h | hdvd
    · have hqe : q = 7 := (Nat.prime_dvd_prime_iff_eq hq prime_7).mp h
      subst hqe
      exact powModNeOne (f := 53) (by norm_num) (by norm_num) (by decide)
    rcases (Nat.Prime.dvd_mul hq).mp hdvd with h | hdvd
    · have hqe : q = 19 := (Nat.prime_dvd_prime_iff_eq hq prime_19).mp h
      subst hqe
      exact powModNeOne (f := 53) (by norm_num) (by norm_num) (by decide)
    rcases (Nat.Prime.dvd_mul hq).mp hdvd with h | hdvd
    · have h2 : q ∣ 47 := Nat.Prime.dvd_of_dvd_pow hq h
      have hqe : q = 47 := (Nat.prime_dvd_prime_iff_eq hq prime_47).mp h2
      subst hqe
      exact powModNeOne (f := 53) (by norm_num) (by norm_num) (by decide)
    rcases (Nat.Prime.dvd_mul hq).mp hdvd with h | hdvd
    · have hqe : q = 127 := (Nat.prime_dvd_prime_iff_eq hq prime_127).mp h
      subst hqe
      exact powModNeOne (f := 53) (by norm_num) (by norm_num) (by decide)
    have h := hdvd
    have hqe : q = 8574133 := (Nat.prime_dvd_prime_iff_eq hq prime_8574133).mp h
    subst hqe
    exact powModNeOne (f := 53) (by norm_num) (by norm_num) (by decide)

theorem prime_31757755568855353 : Nat.Prime 31757755568855353 := by
  have hfac : 31757755568855353 - 1 = 2 ^ 3 * (3 * (31 * (107 * (223 * (4153 * (430751)))))) := by norm_num
  refine lucas_primality 31757755568855353 ((10 : ℕ) : ZMod 31757755568855353) ?_ ?_
  · exact powModEqOne (f := 57) (by norm_num) (by norm_num) (by decide)
  · intro q hq hdvd
    rw [hfac] at hdvd
    rcases (Nat.Prime.dvd_mul hq).mp hdvd with h | hdvd
    · have h2 : q ∣ 2 := Nat.Prime.dvd_of_dvd_pow hq h
      have hqe : q = 2 := (Nat.prime_dvd_prime_iff_eq hq prime_2).mp h2
      subst hqe
      exact powModNeOne (f := 57) (by norm_num) (by norm_num) (by decide)
    rcases (Nat.Prime.dvd_mul hq).mp hdvd with h | hdvd
    · have hqe : q = 3 := (Nat.prime_dvd_prime_iff_eq hq prime_3).mp h
      subst hqe
      exact powModNeOne (f := 57) (by norm_num) (by norm_num) (by decide)
    rcases (Nat.Prime.dvd_mul hq).mp hdvd with h | hdvd
    · have hqe : q = 31 := (Nat.prime_dvd_prime_iff_eq hq prime_31).mp h
      subst hqe
      exact powModNeOne (f := 57) (by norm_num) (by norm_num) (by decide)
    rcases (Nat.Prime.dvd_mul hq).mp hdvd with h | hdvd
    · have hqe : q = 107 := (Nat.prime_dvd_prime_iff_eq hq prime_107).mp h
      subst hqe
      exact powModNeOne (f := 57) (by norm_num) (by norm_num) (by decide)
    rcases (Nat.Prime.dvd_mul hq).mp hdvd with h | hdvd
    · have hqe : q = 223 := (Nat.prime_dvd_prime_iff_eq hq prime_223).mp h
      subst hqe
      exact powModNeOne (f := 57) (by norm_num) (by norm_num) (by decide)
    rcases (Nat.Prime.dvd_mul hq).mp hdvd with h | hdvd
    · have hqe : q = 4153 := (Nat.prime_dvd_prime_iff_eq hq prime_4153).mp h
      subst hqe
      exact powModNeOne (f := 57) (by norm_num) (by norm_num) (by decide)
    have h := hdvd
    have hqe : q = 430751 := (Nat.prime_dvd_prime_iff_eq hq prime_430751).mp h
    subst hqe
    exact powModNeOne (f := 57) (by norm_num) (by norm_num) (by decide)

theorem prime_75445702479781427272750846543864801 : Nat.Prime 75445702479781427272750846543864801 := by
  have hfac : 75445702479781427272750846543864801 - 1 = 2 ^ 5 * (3 ^ 2 * (5 ^ 2 * (75707 * (72106336199 * (1919519569386763))))) := by norm_num
  refine lucas_primality 75445702479781427272750846543864801 ((7 : ℕ) : ZMod 75445702479781427272750846543864801) ?_ ?_
  · exact powModEqOne (f := 118) (by norm_num) (by norm_num) (by decide)
  · intro q hq hdvd
    rw [hfac] at hdvd
    rcases (Nat.Prime.dvd_mul hq).mp hdvd with h | hdvd
    · have h2 : q ∣ 2 := Nat.Prime.dvd_of_dvd_pow hq h
      have hqe : q = 2 := (Nat.prime_dvd_prime_iff_eq hq prime_2).mp h2
      subst hqe
      exact powModNeOne (f := 118) (by norm_num) (by norm_num) (by decide)
    rcases (Nat.Prime.dvd_mul hq).mp hdvd with h | hdvd
    · have h2 : q ∣ 3 := Nat.Prime.dvd_of_dvd_pow hq h
      have hqe : q = 3 := (Nat.prime_dvd_prime_iff_eq hq prime_3).mp h2
      subst hqe
      exact powModNeOne (f := 118) (by norm_num) (by norm_num) (by decide)
    rcases (Nat.Prime.dvd_mul hq).mp hdvd with h | hdvd
    · have h2 : q ∣ 5 := Nat.Prime.dvd_of_dvd_pow hq h
      have hqe : q = 5 := (Nat.prime_dvd_prime_iff_eq hq prime_5).mp h2
      subst hqe
      exact powModNeOne (f := 118) (by norm_num) (by norm_num) (by decide)
    rcases (Nat.Prime.dvd_mul hq).mp hdvd with h | hdvd
    · have hqe : q = 75707 := (Nat.prime_dvd_prime_iff_eq hq prime_75707).mp h
      subst hqe
      exact powModNeOne (f := 118) (by norm_num) (by norm_num) (by decide)
    rcases (Nat.Prime.dvd_mul hq).mp hdvd with h | hdvd
    · have hqe : q = 72106336199 := (Nat.prime_dvd_prime_iff_eq hq prime_72106336199).mp h
      subst hqe
      exact powModNeOne (f := 118) (by norm_num) (by norm_num) (by decide)
    have h := hdvd
    have hqe : q = 1919519569386763 := (Nat.prime_dvd_prime_iff_eq hq prime_1919519569386763).mp h
    subst hqe
    exact powModNeOne (f := 118) (by norm_num) (by norm_num) (by decide)

theorem prime_Q1 : Nat.Prime 74058212732561358302231226437062788676166966415465897661863160754340907 := by
  have hfac : 74058212732561358302231226437062788676166966415465897661863160754340907 - 1 = 2 * (3 * (353 * (57467 * (132049 * (1923133 * (31757755568855353 * (75445702479781427272750846543864801))))))) := by norm_num
  refine lucas_primality 74058212732561358302231226437062788676166966415465897661863160754340907 ((2 : ℕ) : ZMod 74058212732561358302231226437062788676166966415465897661863160754340907) ?_ ?_
  · exact powModEqOne (f := 238) (by norm_num) (by norm_num) (by decide)
  · intro q hq hdvd
    rw [hfac] at hdvd
    rcases (Nat.Prime.dvd_mul hq).mp hdvd with h | hdvd
    · have hqe : q = 2 := (Nat.prime_dvd_prime_iff_eq hq prime_2).mp h
      subst hqe
      exact powModNeOne (f := 238) (by norm_num) (by norm_num) (by decide)
    rcases (Nat.Prime.dvd_mul hq).mp hdvd with h | hdvd
    · have hqe : q = 3 := (Nat.prime_dvd_prime_iff_eq hq prime_3).mp h
      subst hqe
      exact powModNeOne (f := 238) (by norm_num) (by norm_num) (by decide)
    rcases (Nat.Prime.dvd_mul hq).mp hdvd with h | hdvd
    · have hqe : q = 353 := (Nat.prime_dvd_prime_iff_eq hq prime_353).mp h
      subst hqe
      exact powModNeOne (f := 238) (by norm_num) (by norm_num) (by decide)
    rcases (Nat.Prime.dvd_mul hq).mp hdvd with h | hdvd
    · have hqe : q = 57467 := (Nat.prime_dvd_prime_iff_eq hq prime_57467).mp h
      subst hqe
      exact powModNeOne (f := 238) (by norm_num) (by norm_num) (by decide)
    rcases (Nat.Prime.dvd_mul hq).mp hdvd with h | hdvd
    · have hqe : q = 132049 := (Nat.prime_dvd_prime_iff_eq hq prime_132049).mp h
      subst hqe
      exact powModNeOne (f := 238) (by norm_num) (by norm_num) (by decide)
    rcases (Nat.Prime.dvd_mul hq).mp hdvd with h | hdvd
    · have hqe : q = 1923133 := (Nat.prime_dvd_prime_iff_eq hq prime_1923133).mp h
      subst hqe
      exact powModNeOne (f := 238) (by norm_num) (by norm_num) (by decide)
    rcases (Nat.Prime.dvd_mul hq).mp hdvd with h | hdvd
    · have hqe : q = 31757755568855353 := (Nat.prime_dvd_prime_iff_eq hq prime_31757755568855353).mp h
      subst hqe
      exact powModNeOne (f := 238) (by norm_num) (by norm_num) (by decide)
    have h := hdvd
    have hqe : q = 75445702479781427272750846543864801 := (Nat.prime_dvd_prime_iff_eq hq prime_75445702479781427272750846543864801).mp h
    subst hqe
    exact powModNeOne (f := 238) (by norm_num) (by norm_num) (by decide)

theorem prime_P : Nat.Prime P := by
  have hfac : P - 1 = 2 ^ 2 * (3 * (65147 * (74058212732561358302231226437062788676166966415465897661863160754340907))) := by norm_num [P]
  refine lucas_primality P ((2 : ℕ) : ZMod P) ?_ ?_
  · exact powModEqOne (f := 257) (by norm_num [P]) (by norm_num [P]) (by decide)
  · intro q hq hdvd
    rw [hfac] at hdvd
    rcases (Nat.Prime.dvd_mul hq).mp hdvd with h | hdvd
    · have h2 : q ∣ 2 := Nat.Prime.dvd_of_dvd_pow hq h
      have hqe : q = 2 := (Nat.prime_dvd_prime_iff_eq hq prime_2).mp h2
      subst hqe
      exact powModNeOne (f := 257) (by norm_num [P]) (by norm_num [P]) (by decide)
    rcases (Nat.Prime.dvd_mul hq).mp hdvd with h | hdvd
    · have hqe : q = 3 := (Nat.prime_dvd_prime_iff_eq hq prime_3).mp h
      subst hqe
      exact powModNeOne (f := 257) (by norm_num [P]) (by norm_num [P]) (by decide)
    rcases (Nat.Prime.dvd_mul hq).mp hdvd with h | hdvd
    · have hqe : q = 65147 := (Nat.prime_dvd_prime_iff_eq hq prime_65147).mp h
      subst hqe
      exact powModNeOne (f := 257) (by norm_num [P]) (by norm_num [P]) (by decide)
    have h := hdvd
    have hqe : q = 74058212732561358302231226437062788676166966415465897661863160754340907 := (Nat.prime_dvd_prime_iff_eq hq prime_Q1).mp h
    subst hqe
    exact powModNeOne (f := 257) (by norm_num [P]) (by norm_num [P]) (by decide)


instance factPrimeP : Fact (Nat.Prime P) := ⟨prime_P⟩

/-!
## Byte strings

A 32-byte little-endian string is identified with its value, a natural
number below `2^256`; byte `i` is `s / 2^(8*i) % 256`.
-/

/-- Byte 31 of a 32-byte string. -/
def byte31 (s : ℕ) : ℕ := s / 2 ^ 248 % 256

/-- The copy of `s` with byte 31 masked by `0x7f`, exactly as `fe_frombytes`
builds `s_copy`. -/
def maskTop (s : ℕ) : ℕ := s % 2 ^ 248 + (byte31 s &&& 0x7f) * 2 ^ 248

theorem byte31_eq (s : ℕ) (hs : s < 2 ^ 256) : byte31 s = s / 2 ^ 248 := by
  have : s / 2 ^ 248 < 256 := by
    rw [Nat.div_lt_iff_lt_mul (by positivity)]
    calc s < 2 ^ 256 := hs
    _ = 256 * 2 ^ 248 := by norm_num

  rw [byte31, Nat.mod_eq_of_lt this]

theorem maskTop_eq (s : ℕ) (hs : s < 2 ^ 256) : maskTop s = s % 2 ^ 255 := by
  rw [maskTop, byte31_eq s hs]
  have h127 : (0x7f : ℕ) = 2 ^ 7 - 1 := by norm_num
  rw [h127, Nat.and_pow_two_sub_one_eq_mod]
  omega

/-!
## Field arithmetic

The `fiat_25519_*` primitives live in `curve25519_32.h`, which is not among
the repository sources; each is modelled from the spec by its value-level
contract on `GF(p)`.  The limb-level tight/loose distinction collapses: both
flavours denote their value in `GF(p)`, `carry` is the identity on values,
and the loose slack bookkeeping has no observable value-level effect.
-/

/-- Modelled from the spec: `fiat_25519_from_bytes` decodes a 32-byte
little-endian string (top bit required clear by the caller) to the field
element it represents, i.e. its value mod `p`. -/
def fiat_25519_from_bytes (s : ℕ) : Fe := (s : Fe)

/-- Modelled from the spec: `fiat_25519_to_bytes` produces the canonical
little-endian serialization, fully reduced mod `p`. -/
def fiat_25519_to_bytes (a : Fe) : ℕ := a.val

/-- Modelled from the spec: limb-wise addition; on values, addition in `GF(p)`. -/
def fiat_25519_add (a b : Fe) : Fe := a + b

/-- Modelled from the spec: limb-wise subtraction (adding `2p` first);
on values, subtraction in `GF(p)`. -/
def fiat_25519_sub (a b : Fe) : Fe := a - b

/-- Modelled from the spec: carry propagation loose → tight; the identity
on values. -/
def fiat_25519_carry (a : Fe) : Fe := a

/-- Modelled from the spec: multiplication with interleaved reduction. -/
def fiat_25519_carry_mul (a b : Fe) : Fe := a * b

/-- Modelled from the spec: squaring with interleaved reduction. -/
def fiat_25519_carry_square (a : Fe) : Fe := a * a

/-- Modelled from the spec: negation (`2p − x`); on values, negation in `GF(p)`. -/
def fiat_25519_opp (a : Fe) : Fe := -a

/-! Functions of `ed25519.c`, translated call for call. -/

/-- `fe_0`. -/
def fe_0 : Fe := 0

/-- `fe_loose_0`. -/
def fe_loose_0 : Fe := 0

/-- `fe_1`. -/
def fe_1 : Fe := 1

/-- `fe_loose_1`. -/
def fe_loose_1 : Fe := 1

/-- `fe_copy_lt` (a representation-flavour copy; the identity on values). -/
def fe_copy_lt (f : Fe) : Fe := f

/-- `fe_frombytes_strict`: asserts that the top bit (bit 7 of byte 31) is
clear, then calls `fiat_25519_from_bytes`.  The assert is modelled as the
`none` branch. -/
def fe_frombytes_strict (s : ℕ) : Option Fe :=
  if byte31 s &&& 0x80 = 0 then some (fiat_25519_from_bytes s) else none

/-- `fe_frombytes`: masks byte 31 by `0x7f` and takes the strict path, whose
assert always succeeds on the masked copy (theorem `claim_C7`). -/
def fe_frombytes (s : ℕ) : Fe := fiat_25519_from_bytes (maskTop s)

/-- `fe_tobytes`. -/
def fe_tobytes (f : Fe) : ℕ := fiat_25519_to_bytes f

/-- `fe_add`. -/
def fe_add (f g : Fe) : Fe := fiat_25519_add f g

/-- `fe_sub`. -/
def fe_sub (f g : Fe) : Fe := fiat_25519_sub f g

/-- `fe_carry`. -/
def fe_carry (f : Fe) : Fe := fiat_25519_carry f

/-- `fe_mul_impl`. -/
def fe_mul_impl (a b : Fe) : Fe := fiat_25519_carry_mul a b

/-- `fe_mul_ltt`. -/
def fe_mul_ltt (f g : Fe) : Fe := fe_mul_impl f g

/-- `fe_mul_llt`. -/
def fe_mul_llt (f g : Fe) : Fe := fe_mul_impl f g

/-- `fe_mul_ttt`. -/
def fe_mul_ttt (f g : Fe) : Fe := fe_mul_impl f g

/-- `fe_mul_tlt`. -/
def fe_mul_tlt (f g : Fe) : Fe := fe_mul_impl f g

/-- `fe_mul_ttl`. -/
def fe_mul_ttl (f g : Fe) : Fe := fe_mul_impl f g

/-- `fe_mul_tll`. -/
def fe_mul_tll (f g : Fe) : Fe := fe_mul_impl f g

/-- `fe_sq_tl`. -/
def fe_sq_tl (f : Fe) : Fe := fiat_25519_carry_square f

/-- `fe_sq_tt`. -/
def fe_sq_tt (f : Fe) : Fe := fiat_25519_carry_square f

/-- `fe_neg`. -/
def fe_neg (f : Fe) : Fe := fiat_25519_opp f

/-- `n` applications of `fe_sq_tt`, used below for the squaring loops
`for (i = 1; i < k; ++i)` of the addition chains. -/
def fe_sqn (a : Fe) : ℕ → Fe
  | 0 => a
  | n + 1 => fe_sq_tt (fe_sqn a n)

/-- `fe_loose_invert`, the fixed addition chain of `ed25519.c` lines 164-220.
Each squaring loop `for (i = 1; i < k; ++i)` contributes `k - 1` further
squarings, rendered by `fe_sqn · (k-1)`. -/
def fe_loose_invert (z : Fe) : Fe :=
  let t0 := fe_sq_tl z
  let t1 := fe_sq_tt t0
  let t1 := fe_sqn t1 1
  let t1 := fe_mul_tlt z t1
  let t0 := fe_mul_ttt t0 t1
  let t2 := fe_sq_tt t0
  let t1 := fe_mul_ttt t1 t2
  let t2 := fe_sq_tt t1
  let t2 := fe_sqn t2 4
  let t1 := fe_mul_ttt t2 t1
  let t2 := fe_sq_tt t1
  let t2 := fe_sqn t2 9
  let t2 := fe_mul_ttt t2 t1
  let t3 := fe_sq_tt t2
  let t3 := fe_sqn t3 19
  let t2 := fe_mul_ttt t3 t2
  let t2 := fe_sq_tt t2
  let t2 := fe_sqn t2 9
  let t1 := fe_mul_ttt t2 t1
  let t2 := fe_sq_tt t1
  let t2 := fe_sqn t2 49
  let t2 := fe_mul_ttt t2 t1
  let t3 := fe_sq_tt t2
  let t3 := fe_sqn t3 99
  let t2 := fe_mul_ttt t3 t2
  let t2 := fe_sq_tt t2
  let t2 := fe_sqn t2 49
  let t1 := fe_mul_ttt t2 t1
  let t1 := fe_sq_tt t1
  let t1 := fe_sqn t1 4
  fe_mul_ttt t1 t0

/-- `fe_invert`. -/
def fe_invert (z : Fe) : Fe := fe_loose_invert (fe_copy_lt z)

/-- `fe_isnonzero`: carries, serializes, and compares with the all-zero
32-byte string; returns 1 when nonzero, 0 when zero. -/
def fe_isnonzero (f : Fe) : ℕ :=
  if fe_tobytes (fe_carry f) = 0 then 0 else 1

/-- `fe_isnegative`: the low bit (`s[0] & 1`) of the canonical encoding. -/
def fe_isnegative (f : Fe) : ℕ := fe_tobytes f % 256 &&& 1

/-- `fe_pow22523`, the fixed addition chain of `ed25519.c` lines 258-313. -/
def fe_pow22523 (z : Fe) : Fe :=
  let t0 := fe_sq_tt z
  let t1 := fe_sq_tt t0
  let t1 := fe_sqn t1 1
  let t1 := fe_mul_ttt z t1
  let t0 := fe_mul_ttt t0 t1
  let t0 := fe_sq_tt t0
  let t0 := fe_mul_ttt t1 t0
  let t1 := fe_sq_tt t0
  let t1 := fe_sqn t1 4
  let t0 := fe_mul_ttt t1 t0
  let t1 := fe_sq_tt t0
  let t1 := fe_sqn t1 9
  let t1 := fe_mul_ttt t1 t0
  let t2 := fe_sq_tt t1
  let t2 := fe_sqn t2 19
  let t1 := fe_mul_ttt t2 t1
  let t1 := fe_sq_tt t1
  let t1 := fe_sqn t1 9
  let t0 := fe_mul_ttt t1 t0
  let t1 := fe_sq_tt t0
  let t1 := fe_sqn t1 49
  let t1 := fe_mul_ttt t1 t0
  let t2 := fe_sq_tt t1
  let t2 := fe_sqn t2 99
  let t1 := fe_mul_ttt t2 t1
  let t1 := fe_sq_tt t1
  let t1 := fe_sqn t1 49
  let t0 := fe_mul_ttt t1 t0
  let t0 := fe_sq_tt t0
  let t0 := fe_sqn t0 1
  fe_mul_ttt t0 z

/-! Rewrite rules that collapse the addition chains to explicit powers. -/

theorem fe_sq_tt_pow (a : Fe) (n : ℕ) : fe_sq_tt (a ^ n) = a ^ (2 * n) := by
  rw [fe_sq_tt, fiat_25519_carry_square, two_mul, pow_add]

theorem fe_sq_tl_pow (a : Fe) (n : ℕ) : fe_sq_tl (a ^ n) = a ^ (2 * n) := by
  rw [fe_sq_tl, fiat_25519_carry_square, two_mul, pow_add]

theorem fe_sqn_pow (a : Fe) (n : ℕ) : ∀ k : ℕ, fe_sqn (a ^ n) k = a ^ (2 ^ k * n)
  | 0 => by simp [fe_sqn]
  | k + 1 => by
    rw [fe_sqn, fe_sqn_pow a n k, fe_sq_tt_pow]
    ring_nf

theorem fe_mul_ttt_pow (a : Fe) (m n : ℕ) :
    fe_mul_ttt (a ^ m) (a ^ n) = a ^ (m + n) := by
  rw [fe_mul_ttt, fe_mul_impl, fiat_25519_carry_mul, pow_add]

theorem fe_mul_tlt_pow (a : Fe) (m n : ℕ) :
    fe_mul_tlt (a ^ m) (a ^ n) = a ^ (m + n) := by
  rw [fe_mul_tlt, fe_mul_impl, fiat_25519_carry_mul, pow_add]

theorem fe_loose_invert_eq (z : Fe) : fe_loose_invert z = z ^ (P - 2) := by
  have hz : z = z ^ 1 := (pow_one z).symm
  rw [fe_loose_invert, hz]
  simp only [fe_sq_tl_pow, fe_sq_tt_pow, fe_sqn_pow, fe_mul_ttt_pow, fe_mul_tlt_pow,
    Nat.reduceMul, Nat.reduceAdd, Nat.reducePow]
  norm_num [P]

theorem fe_invert_eq (z : Fe) : fe_invert z = z ^ (P - 2) := by
  rw [fe_invert, fe_copy_lt, fe_loose_invert_eq]

theorem fe_pow22523_eq (z : Fe) : fe_pow22523 z = z ^ ((P - 5) / 8) := by
  have hz : z = z ^ 1 := (pow_one z).symm
  rw [fe_pow22523, hz]
  simp only [fe_sq_tl_pow, fe_sq_tt_pow, fe_sqn_pow, fe_mul_ttt_pow, fe_mul_tlt_pow,
    Nat.reduceMul, Nat.reduceAdd, Nat.reducePow]
  norm_num [P]

/-!
## Curve constants

The source stores `d`, `sqrtm1` and `d2` as 10-limb arrays in the mixed
radix `2^25.5`; limb `i` weighs `2^⌈25.5 i⌉ = 2^((51 i + 1) / 2)`.
-/

/-- Value of a 10-limb array in the mixed-radix representation. -/
def feFromLimbs (v : List ℕ) : Fe :=
  ((List.range 10).map fun i => v.getD i 0 * 2 ^ ((51 * i + 1) / 2)).sum

/-- The curve constant `d` of `ed25519.c`. -/
def d : Fe := feFromLimbs [56195235, 13857412, 51736253, 6949390, 114729, 24766616,
  60832955, 30306712, 48412415, 21499315]

/-- The constant `sqrtm1`, a square root of `-1`. -/
def sqrtm1 : Fe := feFromLimbs [34513072, 25610706, 9377949, 3500415, 12389472,
  33281959, 41962654, 31548777, 326685, 11406482]

/-- The constant `d2 = 2 d`. -/
def d2 : Fe := feFromLimbs [45281625, 27714825, 36363642, 13898781, 229458, 15978800,
  54557047, 27058993, 29715967, 9444199]

theorem d_val : d =
    ((37095705934669439343138083508754565189542113879843219016388785533085940283555 : ℕ) : Fe) := by
  rw [d, feFromLimbs]
  norm_num [List.range_succ]

theorem sqrtm1_val : sqrtm1 =
    ((19681161376707505956807079304988542015446066515923890162744021073123829784752 : ℕ) : Fe) := by
  rw [sqrtm1, feFromLimbs]
  norm_num [List.range_succ]

theorem d2_val : d2 =
    ((16295367250680780974490674513165176452449235426866156013048779062215315747161 : ℕ) : Fe) := by
  rw [d2, feFromLimbs]
  norm_num [List.range_succ]

theorem natCast_P_sub_one : ((P - 1 : ℕ) : Fe) = -1 := by
  have h1 : 1 ≤ P := by norm_num [P]
  rw [Nat.cast_sub h1, ZMod.natCast_self, Nat.cast_one]
  ring

/-- The constant `sqrtm1` squares to `-1`. -/
theorem sqrtm1_sq : sqrtm1 * sqrtm1 = -1 := by
  rw [sqrtm1_val, ← Nat.cast_mul]
  have h : (19681161376707505956807079304988542015446066515923890162744021073123829784752 *
      19681161376707505956807079304988542015446066515923890162744021073123829784752 : ℕ) =
      6690407189080634018507799843845558368979872843924222843531373839242004886244 * P +
      (P - 1) := by norm_num [P]
  rw [h, Nat.cast_add, Nat.cast_mul, ZMod.natCast_self, natCast_P_sub_one]
  ring

/-!
## Curve point representations (`ed25519.c` lines 315-358)
-/

/-- Projective `(X : Y : Z)`, affine `(X/Z, Y/Z)`. -/
structure ge_p2 where
  X : Fe
  Y : Fe
  Z : Fe
deriving DecidableEq

/-- Extended `(X : Y : Z : T)`, affine `(X/Z, Y/Z)` with `X·Y = Z·T`. -/
structure ge_p3 where
  X : Fe
  Y : Fe
  Z : Fe
  T : Fe
deriving DecidableEq

/-- Completed `((X : Z), (Y : T))`, affine `(X/Z, Y/T)`. -/
structure ge_p1p1 where
  X : Fe
  Y : Fe
  Z : Fe
  T : Fe
deriving DecidableEq

/-- Cached `(Y+X, Y−X, Z, 2dT)`. -/
structure ge_cached where
  YplusX : Fe
  YminusX : Fe
  Z : Fe
  T2d : Fe
deriving DecidableEq

/-- `ge_p2_0`. -/
def ge_p2_0 : ge_p2 := ⟨fe_0, fe_1, fe_1⟩

/-- `ge_p3_0`. -/
def ge_p3_0 : ge_p3 := ⟨fe_0, fe_1, fe_1, fe_0⟩

/-- `ge_cached_0`. -/
def ge_cached_0 : ge_cached := ⟨fe_loose_1, fe_loose_1, fe_loose_1, fe_loose_0⟩

/-- `ge_p3_to_p2`. -/
def ge_p3_to_p2 (p : ge_p3) : ge_p2 := ⟨p.X, p.Y, p.Z⟩

/-- `x25519_ge_p3_to_cached`. -/
def x25519_ge_p3_to_cached (p : ge_p3) : ge_cached :=
  ⟨fe_add p.Y p.X, fe_sub p.Y p.X, fe_copy_lt p.Z, fe_mul_ltt p.T d2⟩

/-- XOR of `b <<< 7` into byte 31 of `s`: the `s[31] ^= b << 7` step of the
encoders. -/
def setSignBit (s b : ℕ) : ℕ :=
  s % 2 ^ 248 + (byte31 s ^^^ (b <<< 7)) * 2 ^ 248

/-- `x25519_ge_tobytes`. -/
def x25519_ge_tobytes (h : ge_p2) : ℕ :=
  let recip := fe_invert h.Z
  let x := fe_mul_ttt h.X recip
  let y := fe_mul_ttt h.Y recip
  setSignBit (fe_tobytes y) (fe_isnegative x)

/-- `ge_p3_tobytes`. -/
def ge_p3_tobytes (h : ge_p3) : ℕ :=
  let recip := fe_invert h.Z
  let x := fe_mul_ttt h.X recip
  let y := fe_mul_ttt h.Y recip
  setSignBit (fe_tobytes y) (fe_isnegative x)

/-- `x25519_ge_add` (`r = p + q`). -/
def x25519_ge_add (p : ge_p3) (q : ge_cached) : ge_p1p1 :=
  let rX := fe_add p.Y p.X
  let rY := fe_sub p.Y p.X
  let trZ := fe_mul_tll rX q.YplusX
  let trY := fe_mul_tll rY q.YminusX
  let trT := fe_mul_tlt q.T2d p.T
  let trX := fe_mul_ttl p.Z q.Z
  let rT := fe_add trX trX
  let rX2 := fe_sub trZ trY
  let rY2 := fe_add trZ trY
  let trZ2 := fe_carry rT
  let rZ2 := fe_add trZ2 trT
  let rT2 := fe_sub trZ2 trT
  ⟨rX2, rY2, rZ2, rT2⟩

/-- `x25519_ge_sub` (`r = p - q`) with the two `printf` dumps modelled: the
returned pair also carries the two dumped field elements (`r->T` before the
carry and `trZ` after), which the prints only read. -/
def x25519_ge_sub_printed (p : ge_p3) (q : ge_cached) : ge_p1p1 × Fe × Fe :=
  let rX := fe_add p.Y p.X
  let rY := fe_sub p.Y p.X
  let trZ := fe_mul_tll rX q.YminusX
  let trY := fe_mul_tll rY q.YplusX
  let trT := fe_mul_tlt q.T2d p.T
  let trX := fe_mul_ttl p.Z q.Z
  let rT := fe_add trX trX
  let rX2 := fe_sub trZ trY
  let rY2 := fe_add trZ trY
  let printedBefore := rT
  let trZ2 := fe_carry rT
  let printedAfter := trZ2
  let rZ2 := fe_sub trZ2 trT
  let rT2 := fe_add trZ2 trT
  (⟨rX2, rY2, rZ2, rT2⟩, printedBefore, printedAfter)

/-- `x25519_ge_sub` with the prints removed. -/
def x25519_ge_sub (p : ge_p3) (q : ge_cached) : ge_p1p1 :=
  let rX := fe_add p.Y p.X
  let rY := fe_sub p.Y p.X
  let trZ := fe_mul_tll rX q.YminusX
  let trY := fe_mul_tll rY q.YplusX
  let trT := fe_mul_tlt q.T2d p.T
  let trX := fe_mul_ttl p.Z q.Z
  let rT := fe_add trX trX
  let rX2 := fe_sub trZ trY
  let rY2 := fe_add trZ trY
  let trZ2 := fe_carry rT
  let rZ2 := fe_sub trZ2 trT
  let rT2 := fe_add trZ2 trT
  ⟨rX2, rY2, rZ2, rT2⟩

/-- `x25519_ge_frombytes_vartime`.  The sign-correction and assembly of the
output point (`ed25519.c` lines 579-586) is shared by both accepting paths
as `finish`. -/
def x25519_ge_frombytes_vartime (s : ℕ) : Option ge_p3 :=
  let y := fe_frombytes s
  let z := fe_1
  let ysq := fe_sq_tt y
  let vxx0 := fe_mul_ttt ysq d
  let uLoose := fe_sub ysq z
  let u := fe_carry uLoose
  let v := fe_add vxx0 z
  let v3 := fe_mul_ttl (fe_sq_tl v) v
  let x7 := fe_mul_ttt (fe_mul_ttl (fe_sq_tt v3) v) u
  let xp := fe_mul_ttt (fe_mul_ttt (fe_pow22523 x7) v3) u
  let vxx := fe_mul_ttl (fe_sq_tt xp) v
  let check := fe_sub vxx u
  let finish : Fe → Option ge_p3 := fun x0 =>
    let x := if fe_isnegative x0 ≠ byte31 s >>> 7 then fe_carry (fe_neg x0) else x0
    some ⟨x, y, z, fe_mul_ttt x y⟩
  if fe_isnonzero check ≠ 0 then
    let check2 := fe_add vxx u
    if fe_isnonzero check2 ≠ 0 then none
    else finish (fe_mul_ttt xp sqrtm1)
  else finish xp

/-!
## Value-level facts about the field layer
-/

theorem fe_isnonzero_zero_iff (f : Fe) : fe_isnonzero f = 0 ↔ f = 0 := by
  rw [fe_isnonzero, fe_tobytes, fiat_25519_to_bytes, fe_carry, fiat_25519_carry]
  rcases eq_or_ne f 0 with h | h
  · simp [h, ZMod.val_zero]
  · have : f.val ≠ 0 := fun hv => h ((ZMod.val_eq_zero f).mp hv)
    simp only [if_neg this]
    exact iff_of_false (by norm_num) h

theorem fe_isnonzero_one_iff (f : Fe) : fe_isnonzero f = 1 ↔ f ≠ 0 := by
  rw [fe_isnonzero, fe_tobytes, fiat_25519_to_bytes, fe_carry, fiat_25519_carry]
  rcases eq_or_ne f 0 with h | h
  · simp [h, ZMod.val_zero]
  · have : f.val ≠ 0 := fun hv => h ((ZMod.val_eq_zero f).mp hv)
    simp only [if_neg this]
    exact iff_of_true trivial h

theorem fe_isnonzero_ne_zero_iff (f : Fe) : fe_isnonzero f ≠ 0 ↔ f ≠ 0 :=
  not_congr (fe_isnonzero_zero_iff f)

theorem fe_isnegative_eq (f : Fe) : fe_isnegative f = f.val % 2 := by
  rw [fe_isnegative, fe_tobytes, fiat_25519_to_bytes, Nat.and_one_is_mod,
    Nat.mod_mod_of_dvd _ (by norm_num)]

theorem fe_invert_mul (z : Fe) (hz : z ≠ 0) : z * fe_invert z = 1 := by
  rw [fe_invert_eq, ← pow_succ']
  have h : P - 2 + 1 = P - 1 := by norm_num [P]
  rw [h]
  exact ZMod.pow_card_sub_one_eq_one hz

theorem fe_invert_eq_inv (z : Fe) : fe_invert z = z⁻¹ := by
  rcases eq_or_ne z 0 with h | h
  · subst h
    rw [fe_invert_eq, zero_pow (by norm_num [P]), inv_zero]
  · exact eq_inv_of_mul_eq_one_left (by rw [mul_comm]; exact fe_invert_mul z h)

theorem fe_two_ne_zero : (2 : Fe) ≠ 0 := by
  have h : ((2 : ℕ) : Fe) ≠ 0 := by
    rw [Ne, ZMod.natCast_zmod_eq_zero_iff_dvd]
    intro hdvd
    have := Nat.le_of_dvd (by norm_num) hdvd
    norm_num [P] at this
  simpa using h

theorem val_lt_two_pow_255 (a : Fe) : a.val < 2 ^ 255 := by
  have h := ZMod.val_lt a
  have hP : P < 2 ^ 255 := by norm_num [P]
  omega

theorem xor128_of_lt {x : ℕ} (hx : x < 128) : x ^^^ 128 = x + 128 := by
  have h : ∀ y : Fin 128, (y : ℕ) ^^^ 128 = (y : ℕ) + 128 := by decide
  exact h ⟨x, hx⟩

theorem and128_eq_zero {x : ℕ} (hx : x < 128) : x &&& 0x80 = 0 := by
  have h : ∀ y : Fin 128, (y : ℕ) &&& 128 = 0 := by decide
  exact h ⟨x, hx⟩

theorem setSignBit_eq (v b : ℕ) (hv : v < 2 ^ 255) (hb : b ≤ 1) :
    setSignBit v b = v + b * 2 ^ 255 := by
  have hv256 : v < 2 ^ 256 := lt_trans hv (by norm_num)
  have hdiv : v / 2 ^ 248 < 128 := by
    rw [Nat.div_lt_iff_lt_mul (by positivity)]
    calc v < 2 ^ 255 := hv
    _ = 128 * 2 ^ 248 := by norm_num

  rw [setSignBit, byte31_eq v hv256]
  interval_cases b
  · rw [show (0 : ℕ) <<< 7 = 0 from rfl, Nat.xor_zero, Nat.mod_add_div']
    simp
  · rw [show (1 : ℕ) <<< 7 = 128 from rfl, xor128_of_lt hdiv]
    calc v % 2 ^ 248 + (v / 2 ^ 248 + 128) * 2 ^ 248
        = (v % 2 ^ 248 + v / 2 ^ 248 * 2 ^ 248) + 128 * 2 ^ 248 := by ring
      _ = v + 1 * 2 ^ 255 := by rw [Nat.mod_add_div']; norm_num

theorem x25519_ge_tobytes_eq (h : ge_p2) (hZ : h.Z ≠ 0) :
    x25519_ge_tobytes h =
      (h.Y * h.Z⁻¹).val + ((h.X * h.Z⁻¹).val % 2) * 2 ^ 255 := by
  rw [x25519_ge_tobytes]
  simp only [fe_mul_ttt, fe_mul_impl, fiat_25519_carry_mul, fe_tobytes,
    fiat_25519_to_bytes, fe_invert_eq_inv]
  rw [setSignBit_eq _ _ (val_lt_two_pow_255 _) (by rw [fe_isnegative_eq]; omega),
    fe_isnegative_eq]

/-!
## Claims C5, C6, C7, C8
-/

/-- **C7.**  For every 32-byte input `s`, `fe_frombytes` returns the field
element encoded by `s` with bit 255 cleared; the strict decoder applied to the
masked copy succeeds (its assert is never violated) and returns exactly
`fe_frombytes s`. -/
theorem claim_C7 (s : ℕ) (hs : s < 2 ^ 256) :
    fe_frombytes_strict (maskTop s) = some (fe_frombytes s) ∧
    fe_frombytes s = ((s % 2 ^ 255 : ℕ) : Fe) := by
  have hmask := maskTop_eq s hs
  have hlt : s % 2 ^ 255 < 2 ^ 255 := Nat.mod_lt _ (by positivity)
  have hb : byte31 (maskTop s) &&& 0x80 = 0 := by
    rw [hmask, byte31_eq _ (lt_trans hlt (by norm_num))]
    refine and128_eq_zero ?_
    rw [Nat.div_lt_iff_lt_mul (by positivity)]
    calc s % 2 ^ 255 < 2 ^ 255 := hlt
    _ = 128 * 2 ^ 248 := by norm_num

  constructor
  · rw [fe_frombytes_strict, if_pos hb, fe_frombytes]
  · rw [fe_frombytes, fiat_25519_from_bytes, hmask]

/-- Witness for C7 at `s = 3`. -/
theorem claim_C7_witness :
    (3 : ℕ) < 2 ^ 256 ∧
    (fe_frombytes_strict (maskTop 3) = some (fe_frombytes 3) ∧
      fe_frombytes 3 = ((3 % 2 ^ 255 : ℕ) : Fe)) :=
  ⟨by norm_num, claim_C7 3 (by norm_num)⟩

/-- **C5, counterexample.**  The little-endian string encoding `p = 2^255-19`
itself has its top bit clear, yet decoding it strictly and re-serializing
yields the all-zero string, not the input: the round-trip only holds below `p`. -/
theorem claim_C5_counterexample :
    P < 2 ^ 255 ∧ (fe_frombytes_strict P).map fe_tobytes ≠ some P := by
  constructor
  · norm_num [P]
  · have hb : byte31 P &&& 0x80 = 0 := by decide
    rw [fe_frombytes_strict, if_pos hb, fiat_25519_from_bytes, Option.map_some',
      ZMod.natCast_self, fe_tobytes, fiat_25519_to_bytes, ZMod.val_zero]
    intro hcon
    have := Option.some.inj hcon
    norm_num [P] at this

/-- **C5 (amended).**  For every 32-byte string `s` whose top bit is zero and
whose value is below `p`, `fe_tobytes (fe_frombytes_strict s) = s`. -/
theorem claim_C5 (s : ℕ) (htop : s < 2 ^ 255) (hlt : s < P) :
    (fe_frombytes_strict s).map fe_tobytes = some s := by
  have hb : byte31 s &&& 0x80 = 0 := by
    rw [byte31_eq _ (lt_trans htop (by norm_num))]
    refine and128_eq_zero ?_
    rw [Nat.div_lt_iff_lt_mul (by positivity)]
    calc s < 2 ^ 255 := htop
    _ = 128 * 2 ^ 248 := by norm_num

  rw [fe_frombytes_strict, if_pos hb, fiat_25519_from_bytes, Option.map_some',
    fe_tobytes, fiat_25519_to_bytes, ZMod.val_natCast_of_lt hlt]

/-- Witness for the amended C5 at `s = 5`. -/
theorem claim_C5_witness :
    (5 : ℕ) < 2 ^ 255 ∧ (5 : ℕ) < P ∧
    (fe_frombytes_strict 5).map fe_tobytes = some 5 :=
  ⟨by norm_num, by norm_num [P], claim_C5 5 (by norm_num) (by norm_num [P])⟩

/-- **C8.**  `fe_isnonzero` decides exactly whether the represented value is
zero mod `p`: it returns 1 on every nonzero field element and 0 on zero.  (In
the value-level model of the fiat primitives the result depends only on the
represented value, so independence from the particular loose limb
representation holds by construction.) -/
theorem claim_C8 (f : Fe) :
    (fe_isnonzero f = 1 ↔ f ≠ 0) ∧ (fe_isnonzero f = 0 ↔ f = 0) :=
  ⟨fe_isnonzero_one_iff f, fe_isnonzero_zero_iff f⟩

/-- Witness for C8 at `f = 1`. -/
theorem claim_C8_witness :
    (fe_isnonzero 1 = 1 ↔ (1 : Fe) ≠ 0) ∧ (fe_isnonzero 1 = 0 ↔ (1 : Fe) = 0) :=
  claim_C8 1

/-- **C6.**  For every nonzero field element `a`, multiplying `a` by
`fe_invert a` yields 1, and `fe_invert` computes exactly `a^(p-2)` through the
fixed addition chain of `fe_loose_invert`. -/
theorem claim_C6 (a : Fe) (ha : a ≠ 0) :
    fe_mul_ttt a (fe_invert a) = 1 ∧ fe_invert a = a ^ (P - 2) := by
  refine ⟨?_, fe_invert_eq a⟩
  rw [fe_mul_ttt, fe_mul_impl, fiat_25519_carry_mul]
  exact fe_invert_mul a ha

/-- Witness for C6 at `a = 2`. -/
theorem claim_C6_witness :
    (2 : Fe) ≠ 0 ∧ (fe_mul_ttt 2 (fe_invert 2) = 1 ∧ fe_invert 2 = 2 ^ (P - 2)) :=
  ⟨fe_two_ne_zero, claim_C6 2 fe_two_ne_zero⟩

/-!
## Shape of the point decoder
-/

/-- The sign-correction step of `x25519_ge_frombytes_vartime`: negate the
candidate when its low bit disagrees with the encoded sign bit `s[31] >> 7`. -/
def sgnSdjust (s : ℕ) (x0 : Fe) : Fe :=
  if fe_isnegative x0 ≠ byte31 s >>> 7 then -x0 else x0

theorem byte31_shift (s : ℕ) (hs : s < 2 ^ 256) : byte31 s >>> 7 = s / 2 ^ 255 := by
  rw [byte31_eq s hs, Nat.shiftRight_eq_div_pow, Nat.div_div_eq_div_mul]
  norm_num

/-- Evaluated shape of `x25519_ge_frombytes_vartime`: writing `y` for the
decoded `y`-coordinate, `u = y²-1`, `v = dy²+1` and
`cand = uv³·(uv⁷)^((p-5)/8)`, the decoder accepts with candidate `cand` when
`v·cand² = u`, accepts with `cand·√-1` when `v·cand² = -u`, and rejects
otherwise. -/
theorem frombytes_shape (s : ℕ) (y u v cand : Fe)
    (hy : y = fe_frombytes s)
    (hu : u = y ^ 2 - 1)
    (hv : v = d * y ^ 2 + 1)
    (hcand : cand = u * v ^ 3 * (u * v ^ 7) ^ ((P - 5) / 8)) :
    x25519_ge_frombytes_vartime s =
      if v * cand ^ 2 = u then
        some ⟨sgnSdjust s cand, y, 1, sgnSdjust s cand * y⟩
      else if v * cand ^ 2 = -u then
        some ⟨sgnSdjust s (cand * sqrtm1), y, 1, sgnSdjust s (cand * sqrtm1) * y⟩
      else none := by
  have hyy : fe_frombytes s = y := hy.symm
  have hu0 : fe_carry (fe_sub (fe_sq_tt y) fe_1) = u := by
    simp only [fe_carry, fiat_25519_carry, fe_sub, fiat_25519_sub, fe_sq_tt,
      fiat_25519_carry_square, fe_1]
    rw [hu]; ring
  have hv0 : fe_add (fe_mul_ttt (fe_sq_tt y) d) fe_1 = v := by
    simp only [fe_add, fiat_25519_add, fe_mul_ttt, fe_mul_impl, fiat_25519_carry_mul,
      fe_sq_tt, fiat_25519_carry_square, fe_1]
    rw [hv]; ring
  have hv3 : fe_mul_ttl (fe_sq_tl v) v = v ^ 3 := by
    simp only [fe_mul_ttl, fe_mul_impl, fiat_25519_carry_mul, fe_sq_tl,
      fiat_25519_carry_square]
    ring
  have hx7 : fe_mul_ttt (fe_mul_ttl (fe_sq_tt (v ^ 3)) v) u = u * v ^ 7 := by
    simp only [fe_mul_ttt, fe_mul_ttl, fe_mul_impl, fiat_25519_carry_mul, fe_sq_tt,
      fiat_25519_carry_square]
    ring
  have hxp : fe_mul_ttt (fe_mul_ttt (fe_pow22523 (u * v ^ 7)) (v ^ 3)) u = cand := by
    rw [fe_pow22523_eq]
    simp only [fe_mul_ttt, fe_mul_impl, fiat_25519_carry_mul]
    rw [hcand]; ring
  have hvxx : fe_mul_ttl (fe_sq_tt cand) v = v * cand ^ 2 := by
    simp only [fe_mul_ttl, fe_mul_impl, fiat_25519_carry_mul, fe_sq_tt,
      fiat_25519_carry_square]
    ring
  have hchk1 : (fe_isnonzero (fe_sub (v * cand ^ 2) u) ≠ 0) ↔ ¬(v * cand ^ 2 = u) := by
    rw [fe_isnonzero_ne_zero_iff, fe_sub, fiat_25519_sub, not_iff_not, sub_eq_zero]
  have hchk2 : (fe_isnonzero (fe_add (v * cand ^ 2) u) ≠ 0) ↔ ¬(v * cand ^ 2 = -u) := by
    rw [fe_isnonzero_ne_zero_iff, fe_add, fiat_25519_add, not_iff_not,
      add_eq_zero_iff_eq_neg]
  rw [x25519_ge_frombytes_vartime]
  simp only [hyy, hu0, hv0, hv3, hx7, hxp, hvxx, hchk1, hchk2]
  have hmul : ∀ a b : Fe, fe_mul_ttt a b = a * b := by
    intro a b
    simp only [fe_mul_ttt, fe_mul_impl, fiat_25519_carry_mul]
  have hfin : ∀ x0 : Fe,
      (if fe_isnegative x0 ≠ byte31 s >>> 7 then fe_carry (fe_neg x0) else x0) =
        sgnSdjust s x0 := by
    intro x0
    simp only [sgnSdjust, fe_carry, fiat_25519_carry, fe_neg, fiat_25519_opp]
  by_cases h1 : v * cand ^ 2 = u
  · rw [if_neg (not_not_intro h1), if_pos h1]
    simp only [hmul, hfin, fe_1]
  · by_cases h2 : v * cand ^ 2 = -u
    · rw [if_pos h1, if_neg (not_not_intro h2), if_neg h1, if_pos h2]
      simp only [hmul, hfin, fe_1]
    · rw [if_pos h1, if_pos h2, if_neg h1, if_neg h2]

/-- Decoding the 32-byte string of value 1 yields the point `(0, 1)`. -/
theorem frombytes_one : x25519_ge_frombytes_vartime 1 = some ⟨0, 1, 1, 0⟩ := by
  have hy1 : (1 : Fe) = fe_frombytes 1 := by
    rw [fe_frombytes, fiat_25519_from_bytes, show maskTop 1 = 1 from by decide,
      Nat.cast_one]
  rw [frombytes_shape 1 1 0 (d + 1) 0 hy1 (by norm_num) (by ring) (by ring)]
  rw [if_pos (by ring)]
  have hadj : sgnSdjust 1 0 = 0 := by
    rw [sgnSdjust, fe_isnegative_eq, ZMod.val_zero,
      show byte31 1 >>> 7 = 0 from by decide]
    norm_num
  rw [hadj]
  norm_num

/-- **C9.**  Whenever the decoder returns success, the output extended point
has `Z` exactly 1 and satisfies the extended-coordinate invariant
`X·Y = Z·T`. -/
theorem claim_C9 (s : ℕ) (h : ge_p3)
    (hh : x25519_ge_frombytes_vartime s = some h) :
    h.Z = 1 ∧ h.X * h.Y = h.Z * h.T := by
  rw [frombytes_shape s (fe_frombytes s) _ _ _ rfl rfl rfl rfl] at hh
  split_ifs at hh
  all_goals
    obtain rfl := Option.some.inj hh
    exact ⟨rfl, (one_mul _).symm⟩

/-- Witness for C9: the decoder succeeds on the string of value 1 and
its output satisfies the invariant. -/
theorem claim_C9_witness :
    x25519_ge_frombytes_vartime 1 = some ⟨0, 1, 1, 0⟩ ∧
    ((⟨0, 1, 1, 0⟩ : ge_p3).Z = 1 ∧
      (⟨0, 1, 1, 0⟩ : ge_p3).X * (⟨0, 1, 1, 0⟩ : ge_p3).Y =
        (⟨0, 1, 1, 0⟩ : ge_p3).Z * (⟨0, 1, 1, 0⟩ : ge_p3).T) :=
  ⟨frombytes_one, claim_C9 1 ⟨0, 1, 1, 0⟩ frombytes_one⟩

/-- **C2.**  The decoder parses `y` from the low 255 bits and the sign from
bit 7 of byte 31, forms `u = y²-1`, `v = dy²+1` and the candidate
`x = uv³·(uv⁷)^((p-5)/8)`; it accepts iff `v·x²` equals `u` or `-u`
(multiplying `x` by `√-1` in the latter case), returns failure whenever no
root exists, negates `x` when its low bit disagrees with the sign bit, and on
success the output satisfies `v·X² = u`, hence the curve equation, with
`T = X·Y`. -/
theorem claim_C2 (s : ℕ) (hs : s < 2 ^ 256) (y u v cand xpre : Fe) (sign : ℕ)
    (hy : y = ((s % 2 ^ 255 : ℕ) : Fe))
    (hu : u = y ^ 2 - 1)
    (hv : v = d * y ^ 2 + 1)
    (hcand : cand = u * v ^ 3 * (u * v ^ 7) ^ ((P - 5) / 8))
    (hxpre : xpre = if v * cand ^ 2 = u then cand else cand * sqrtm1)
    (hsign : sign = s / 2 ^ 255) :
    ((x25519_ge_frombytes_vartime s).isSome ↔
      (v * cand ^ 2 = u ∨ v * cand ^ 2 = -u)) ∧
    ((¬∃ x : Fe, v * x ^ 2 = u) → x25519_ge_frombytes_vartime s = none) ∧
    (∀ h : ge_p3, x25519_ge_frombytes_vartime s = some h →
      h.Y = y ∧ h.Z = 1 ∧ h.T = h.X * h.Y ∧ v * h.X ^ 2 = u ∧
      (-h.X ^ 2 + h.Y ^ 2 = 1 + d * h.X ^ 2 * h.Y ^ 2) ∧
      h.X = (if fe_isnegative xpre ≠ sign then -xpre else xpre)) := by
  have hyb : y = fe_frombytes s := by
    rw [fe_frombytes, fiat_25519_from_bytes, maskTop_eq s hs]
    exact hy
  have hshape := frombytes_shape s y u v cand hyb hu hv hcand
  have hsgn : ∀ x0 : Fe,
      sgnSdjust s x0 = if fe_isnegative x0 ≠ sign then -x0 else x0 := by
    intro x0
    rw [sgnSdjust, byte31_shift s hs, hsign]
  refine ⟨?_, ?_, ?_⟩
  · rw [hshape]
    by_cases h1 : v * cand ^ 2 = u
    · rw [if_pos h1]
      simp [h1]
    · by_cases h2 : v * cand ^ 2 = -u
      · rw [if_neg h1, if_pos h2]
        simp [h2]
      · rw [if_neg h1, if_neg h2]
        simp [h1, h2]
  · intro hnx
    rw [hshape]
    have h1 : ¬(v * cand ^ 2 = u) := fun hc => hnx ⟨cand, hc⟩
    have h2 : ¬(v * cand ^ 2 = -u) := fun hc =>
      hnx ⟨cand * sqrtm1, by
        linear_combination (-1 : Fe) * hc + v * cand ^ 2 * sqrtm1_sq⟩
    rw [if_neg h1, if_neg h2]
  · intro h hh
    rw [hshape] at hh
    by_cases h1 : v * cand ^ 2 = u
    · rw [if_pos h1] at hh
      obtain rfl := Option.some.inj hh
      have hX2 : sgnSdjust s cand ^ 2 = cand ^ 2 := by
        rw [sgnSdjust]
        split_ifs <;> ring
      refine ⟨rfl, rfl, rfl, ?_, ?_, ?_⟩
      · show v * sgnSdjust s cand ^ 2 = u
        rw [hX2]; exact h1
      · show -sgnSdjust s cand ^ 2 + y ^ 2 = 1 + d * sgnSdjust s cand ^ 2 * y ^ 2
        rw [hX2]
        linear_combination (-1 : Fe) * h1 - hu + cand ^ 2 * hv
      · rw [hxpre, if_pos h1]
        exact hsgn cand
    · by_cases h2 : v * cand ^ 2 = -u
      · rw [if_neg h1, if_pos h2] at hh
        obtain rfl := Option.some.inj hh
        have hX2 : sgnSdjust s (cand * sqrtm1) ^ 2 = -(cand ^ 2) := by
          rw [sgnSdjust]
          split_ifs <;> linear_combination cand ^ 2 * sqrtm1_sq
        refine ⟨rfl, rfl, rfl, ?_, ?_, ?_⟩
        · show v * sgnSdjust s (cand * sqrtm1) ^ 2 = u
          rw [hX2]
          linear_combination (-1 : Fe) * h2
        · show -sgnSdjust s (cand * sqrtm1) ^ 2 + y ^ 2 =
            1 + d * sgnSdjust s (cand * sqrtm1) ^ 2 * y ^ 2
          rw [hX2]
          linear_combination h2 - hu - cand ^ 2 * hv
        · rw [hxpre, if_neg h1]
          exact hsgn (cand * sqrtm1)
      · rw [if_neg h1, if_neg h2] at hh
        exact absurd hh (by simp)

/-- Witness for C2 at `s = 1`, `y = 1`, `u = 0`, `v = d+1`, `cand = 0`. -/
theorem claim_C2_witness :
    (1 : ℕ) < 2 ^ 256 ∧
    (((x25519_ge_frombytes_vartime 1).isSome ↔
        ((d + 1) * (0 : Fe) ^ 2 = 0 ∨ (d + 1) * (0 : Fe) ^ 2 = -0)) ∧
      ((¬∃ x : Fe, (d + 1) * x ^ 2 = 0) → x25519_ge_frombytes_vartime 1 = none) ∧
      (∀ h : ge_p3, x25519_ge_frombytes_vartime 1 = some h →
        h.Y = 1 ∧ h.Z = 1 ∧ h.T = h.X * h.Y ∧ (d + 1) * h.X ^ 2 = 0 ∧
        (-h.X ^ 2 + h.Y ^ 2 = 1 + d * h.X ^ 2 * h.Y ^ 2) ∧
        h.X = (if fe_isnegative 0 ≠ 0 then -0 else 0))) :=
  ⟨by norm_num,
    claim_C2 1 (by norm_num) 1 0 (d + 1) 0 0 0 (by norm_num) (by norm_num)
      (by ring) (by ring) (by rw [if_pos (by ring)]) (by norm_num)⟩

/-!
## Claims C3 and C10
-/

/-- **C3.**  For a projective point with `Z ≠ 0`, `x25519_ge_tobytes`
produces the canonical serialization of `Y·Z⁻¹` with the top bit of the last
byte equal to the low bit of the canonical encoding of `X·Z⁻¹`;
`ge_p3_tobytes` computes the same formula, and the two encoders produce
identical bytes on any extended/projective pair representing the same affine
point. -/
theorem claim_C3 :
    (∀ h : ge_p2, h.Z ≠ 0 →
      x25519_ge_tobytes h = (h.Y * h.Z⁻¹).val + ((h.X * h.Z⁻¹).val % 2) * 2 ^ 255) ∧
    (∀ h : ge_p3, h.Z ≠ 0 →
      ge_p3_tobytes h = (h.Y * h.Z⁻¹).val + ((h.X * h.Z⁻¹).val % 2) * 2 ^ 255) ∧
    (∀ (hp : ge_p3) (hq : ge_p2), hp.Z ≠ 0 → hq.Z ≠ 0 →
      hp.X * hq.Z = hq.X * hp.Z → hp.Y * hq.Z = hq.Y * hp.Z →
      ge_p3_tobytes hp = x25519_ge_tobytes hq) := by
  have hp3 : ∀ h : ge_p3, ge_p3_tobytes h = x25519_ge_tobytes ⟨h.X, h.Y, h.Z⟩ := by
    intro h
    rw [ge_p3_tobytes, x25519_ge_tobytes]
  refine ⟨x25519_ge_tobytes_eq, ?_, ?_⟩
  · intro h hZ
    rw [hp3 h]
    exact x25519_ge_tobytes_eq ⟨h.X, h.Y, h.Z⟩ hZ
  · intro hp hq hZp hZq hX hY
    rw [hp3 hp, x25519_ge_tobytes_eq ⟨hp.X, hp.Y, hp.Z⟩ hZp,
      x25519_ge_tobytes_eq hq hZq]
    have hXe : hp.X * hp.Z⁻¹ = hq.X * hq.Z⁻¹ := by
      rw [← div_eq_mul_inv, ← div_eq_mul_inv, div_eq_div_iff hZp hZq]
      exact hX
    have hYe : hp.Y * hp.Z⁻¹ = hq.Y * hq.Z⁻¹ := by
      rw [← div_eq_mul_inv, ← div_eq_mul_inv, div_eq_div_iff hZp hZq]
      exact hY
    rw [hXe, hYe]

/-- Witness for C3 at the points `(0 : 1 : 1)` and `(0 : 1 : 1 : 0)`. -/
theorem claim_C3_witness :
    (1 : Fe) ≠ 0 ∧
    x25519_ge_tobytes ⟨0, 1, 1⟩ =
      ((1 : Fe) * (1 : Fe)⁻¹).val + (((0 : Fe) * (1 : Fe)⁻¹).val % 2) * 2 ^ 255 ∧
    ge_p3_tobytes ⟨0, 1, 1, 0⟩ = x25519_ge_tobytes ⟨0, 1, 1⟩ :=
  ⟨one_ne_zero, claim_C3.1 ⟨0, 1, 1⟩ one_ne_zero,
    claim_C3.2.2 ⟨0, 1, 1, 0⟩ ⟨0, 1, 1⟩ one_ne_zero one_ne_zero (by ring) (by ring)⟩

/-- The affine curve equation for an extended point, via its projection. -/
def onCurveP3 (p : ge_p3) : Prop :=
  -(p.X / p.Z) ^ 2 + (p.Y / p.Z) ^ 2 = 1 + d * (p.X / p.Z) ^ 2 * (p.Y / p.Z) ^ 2

/-- **C10.**  `ge_cached_0` is the cached tuple `(1, 1, 1, 0)` (the cached
form of the identity `(0, 1)`), and adding it to any extended point `P` on
the curve with `Z ≠ 0` yields a completed point projecting to the same
affine point as `P`. -/
theorem claim_C10 :
    ge_cached_0 = ⟨1, 1, 1, 0⟩ ∧
    ∀ p : ge_p3, onCurveP3 p → p.Z ≠ 0 →
      (x25519_ge_add p ge_cached_0).Z ≠ 0 ∧
      (x25519_ge_add p ge_cached_0).T ≠ 0 ∧
      (x25519_ge_add p ge_cached_0).X / (x25519_ge_add p ge_cached_0).Z =
        p.X / p.Z ∧
      (x25519_ge_add p ge_cached_0).Y / (x25519_ge_add p ge_cached_0).T =
        p.Y / p.Z := by
  constructor
  · rfl
  · intro p _ hz
    have hX : (x25519_ge_add p ge_cached_0).X = 2 * p.X := by
      simp only [x25519_ge_add, ge_cached_0, fe_add, fiat_25519_add, fe_sub,
        fiat_25519_sub, fe_mul_tll, fe_mul_tlt, fe_mul_ttl, fe_mul_impl,
        fiat_25519_carry_mul, fe_carry, fiat_25519_carry, fe_loose_1, fe_loose_0]
      ring
    have hY : (x25519_ge_add p ge_cached_0).Y = 2 * p.Y := by
      simp only [x25519_ge_add, ge_cached_0, fe_add, fiat_25519_add, fe_sub,
        fiat_25519_sub, fe_mul_tll, fe_mul_tlt, fe_mul_ttl, fe_mul_impl,
        fiat_25519_carry_mul, fe_carry, fiat_25519_carry, fe_loose_1, fe_loose_0]
      ring
    have hZ : (x25519_ge_add p ge_cached_0).Z = 2 * p.Z := by
      simp only [x25519_ge_add, ge_cached_0, fe_add, fiat_25519_add, fe_sub,
        fiat_25519_sub, fe_mul_tll, fe_mul_tlt, fe_mul_ttl, fe_mul_impl,
        fiat_25519_carry_mul, fe_carry, fiat_25519_carry, fe_loose_1, fe_loose_0]
      ring
    have hT : (x25519_ge_add p ge_cached_0).T = 2 * p.Z := by
      simp only [x25519_ge_add, ge_cached_0, fe_add, fiat_25519_add, fe_sub,
        fiat_25519_sub, fe_mul_tll, fe_mul_tlt, fe_mul_ttl, fe_mul_impl,
        fiat_25519_carry_mul, fe_carry, fiat_25519_carry, fe_loose_1, fe_loose_0]
      ring
    refine ⟨?_, ?_, ?_, ?_⟩
    · rw [hZ]; exact mul_ne_zero fe_two_ne_zero hz
    · rw [hT]; exact mul_ne_zero fe_two_ne_zero hz
    · rw [hX, hZ, mul_div_mul_left _ _ fe_two_ne_zero]
    · rw [hY, hT, mul_div_mul_left _ _ fe_two_ne_zero]

/-- Witness for C10 at the identity point `(0 : 1 : 1 : 0)`. -/
theorem claim_C10_witness :
    onCurveP3 ⟨0, 1, 1, 0⟩ ∧ ((⟨0, 1, 1, 0⟩ : ge_p3).Z ≠ 0) ∧
    ((x25519_ge_add ⟨0, 1, 1, 0⟩ ge_cached_0).Z ≠ 0 ∧
      (x25519_ge_add ⟨0, 1, 1, 0⟩ ge_cached_0).T ≠ 0 ∧
      (x25519_ge_add ⟨0, 1, 1, 0⟩ ge_cached_0).X /
          (x25519_ge_add ⟨0, 1, 1, 0⟩ ge_cached_0).Z =
        (⟨0, 1, 1, 0⟩ : ge_p3).X / (⟨0, 1, 1, 0⟩ : ge_p3).Z ∧
      (x25519_ge_add ⟨0, 1, 1, 0⟩ ge_cached_0).Y /
          (x25519_ge_add ⟨0, 1, 1, 0⟩ ge_cached_0).T =
        (⟨0, 1, 1, 0⟩ : ge_p3).Y / (⟨0, 1, 1, 0⟩ : ge_p3).Z) := by
  have hc : onCurveP3 ⟨0, 1, 1, 0⟩ := by
    rw [onCurveP3]
    norm_num
  exact ⟨hc, one_ne_zero, claim_C10.2 ⟨0, 1, 1, 0⟩ hc one_ne_zero⟩

/-!
## Claim C4
-/

/-- The constant `d2` equals `2·d`. -/
theorem d2_eq : d2 = 2 * d := by
  rw [d2_val, d_val, ← Nat.cast_ofNat (n := 2), ← Nat.cast_mul]
  have h : (2 * 37095705934669439343138083508754565189542113879843219016388785533085940283555 : ℕ) =
      1 * P + 16295367250680780974490674513165176452449235426866156013048779062215315747161 := by
    norm_num [P]
  rw [h, Nat.cast_add, Nat.cast_mul, ZMod.natCast_self]
  ring

/-- The affine twisted-Edwards sum, first coordinate. -/
def edwardsAddX (x1 y1 x2 y2 : Fe) : Fe :=
  (x1 * y2 + x2 * y1) / (1 + d * x1 * x2 * y1 * y2)

/-- The affine twisted-Edwards sum, second coordinate. -/
def edwardsAddY (x1 y1 x2 y2 : Fe) : Fe :=
  (y1 * y2 + x1 * x2) / (1 - d * x1 * x2 * y1 * y2)

/-- **C4.**  `x25519_ge_sub p q` equals `x25519_ge_add p q'` where `q'` is `q`
with `YplusX`/`YminusX` swapped and `T2d` negated; that swap-and-negate of a
cached point is the cached form of the negated extended point; the two printf
dumps only read intermediates, so the function with the prints removed
computes the same output; and the subtraction of a cached point projects to
the affine Edwards sum of `P` and `−Q`. -/
theorem claim_C4 :
    (∀ (p : ge_p3) (q : ge_cached),
      x25519_ge_sub p q = x25519_ge_add p ⟨q.YminusX, q.YplusX, q.Z, -q.T2d⟩) ∧
    (∀ (p : ge_p3) (q : ge_cached),
      (x25519_ge_sub_printed p q).1 = x25519_ge_sub p q) ∧
    (∀ r : ge_p3,
      (⟨(x25519_ge_p3_to_cached r).YminusX, (x25519_ge_p3_to_cached r).YplusX,
        (x25519_ge_p3_to_cached r).Z, -(x25519_ge_p3_to_cached r).T2d⟩ : ge_cached) =
        x25519_ge_p3_to_cached ⟨-r.X, r.Y, r.Z, -r.T⟩) ∧
    (∀ (p r : ge_p3), p.Z ≠ 0 → r.Z ≠ 0 →
      p.X * p.Y = p.Z * p.T → r.X * r.Y = r.Z * r.T →
      1 + d * (p.X / p.Z) * (-(r.X / r.Z)) * (p.Y / p.Z) * (r.Y / r.Z) ≠ 0 →
      1 - d * (p.X / p.Z) * (-(r.X / r.Z)) * (p.Y / p.Z) * (r.Y / r.Z) ≠ 0 →
      (x25519_ge_sub p (x25519_ge_p3_to_cached r)).Z ≠ 0 ∧
      (x25519_ge_sub p (x25519_ge_p3_to_cached r)).T ≠ 0 ∧
      (x25519_ge_sub p (x25519_ge_p3_to_cached r)).X /
          (x25519_ge_sub p (x25519_ge_p3_to_cached r)).Z =
        edwardsAddX (p.X / p.Z) (p.Y / p.Z) (-(r.X / r.Z)) (r.Y / r.Z) ∧
      (x25519_ge_sub p (x25519_ge_p3_to_cached r)).Y /
          (x25519_ge_sub p (x25519_ge_p3_to_cached r)).T =
        edwardsAddY (p.X / p.Z) (p.Y / p.Z) (-(r.X / r.Z)) (r.Y / r.Z)) := by
  refine ⟨?_, ?_, ?_, ?_⟩
  · intro p q
    simp only [x25519_ge_sub, x25519_ge_add, fe_add, fiat_25519_add, fe_sub,
      fiat_25519_sub, fe_mul_tll, fe_mul_tlt, fe_mul_ttl, fe_mul_impl,
      fiat_25519_carry_mul, fe_carry, fiat_25519_carry, ge_p1p1.mk.injEq]
    exact ⟨by ring, by ring, by ring, by ring⟩
  · intro p q
    rfl
  · intro r
    simp only [x25519_ge_p3_to_cached, fe_add, fiat_25519_add, fe_sub,
      fiat_25519_sub, fe_mul_ltt, fe_mul_impl, fiat_25519_carry_mul, fe_copy_lt,
      ge_cached.mk.injEq]
    refine ⟨by ring, by ring, ?_, by ring⟩
    trivial
  · intro p r hZp hZr hTp hTr hd1 hd2
    have htp : p.T = p.X * p.Y / p.Z := by
      rw [eq_div_iff hZp]
      linear_combination -hTp
    have htr : r.T = r.X * r.Y / r.Z := by
      rw [eq_div_iff hZr]
      linear_combination -hTr
    have hsX : (x25519_ge_sub p (x25519_ge_p3_to_cached r)).X =
        2 * (p.X * r.Y - r.X * p.Y) := by
      simp only [x25519_ge_sub, x25519_ge_p3_to_cached, fe_add, fiat_25519_add,
        fe_sub, fiat_25519_sub, fe_mul_tll, fe_mul_tlt, fe_mul_ttl, fe_mul_ltt,
        fe_mul_impl, fiat_25519_carry_mul, fe_carry, fiat_25519_carry, fe_copy_lt]
      ring
    have hsY : (x25519_ge_sub p (x25519_ge_p3_to_cached r)).Y =
        2 * (p.Y * r.Y - p.X * r.X) := by
      simp only [x25519_ge_sub, x25519_ge_p3_to_cached, fe_add, fiat_25519_add,
        fe_sub, fiat_25519_sub, fe_mul_tll, fe_mul_tlt, fe_mul_ttl, fe_mul_ltt,
        fe_mul_impl, fiat_25519_carry_mul, fe_carry, fiat_25519_carry, fe_copy_lt]
      ring
    have hsZ : (x25519_ge_sub p (x25519_ge_p3_to_cached r)).Z =
        2 * (p.Z * r.Z) - 2 * d * (r.T * p.T) := by
      simp only [x25519_ge_sub, x25519_ge_p3_to_cached, fe_add, fiat_25519_add,
        fe_sub, fiat_25519_sub, fe_mul_tll, fe_mul_tlt, fe_mul_ttl, fe_mul_ltt,
        fe_mul_impl, fiat_25519_carry_mul, fe_carry, fiat_25519_carry, fe_copy_lt,
        d2_eq]
      ring
    have hsT : (x25519_ge_sub p (x25519_ge_p3_to_cached r)).T =
        2 * (p.Z * r.Z) + 2 * d * (r.T * p.T) := by
      simp only [x25519_ge_sub, x25519_ge_p3_to_cached, fe_add, fiat_25519_add,
        fe_sub, fiat_25519_sub, fe_mul_tll, fe_mul_tlt, fe_mul_ttl, fe_mul_ltt,
        fe_mul_impl, fiat_25519_carry_mul, fe_carry, fiat_25519_carry, fe_copy_lt,
        d2_eq]
      ring
    rw [htp, htr] at hsZ hsT
    have hsZval : (x25519_ge_sub p (x25519_ge_p3_to_cached r)).Z =
        2 * (p.Z * r.Z) *
          (1 + d * (p.X / p.Z) * (-(r.X / r.Z)) * (p.Y / p.Z) * (r.Y / r.Z)) := by
      rw [hsZ]
      field_simp [hZp, hZr]
      ring
    have hsTval : (x25519_ge_sub p (x25519_ge_p3_to_cached r)).T =
        2 * (p.Z * r.Z) *
          (1 - d * (p.X / p.Z) * (-(r.X / r.Z)) * (p.Y / p.Z) * (r.Y / r.Z)) := by
      rw [hsT]
      field_simp [hZp, hZr]
      ring
    have hZne : (x25519_ge_sub p (x25519_ge_p3_to_cached r)).Z ≠ 0 := by
      rw [hsZval]
      exact mul_ne_zero (mul_ne_zero fe_two_ne_zero (mul_ne_zero hZp hZr)) hd1
    have hTne : (x25519_ge_sub p (x25519_ge_p3_to_cached r)).T ≠ 0 := by
      rw [hsTval]
      exact mul_ne_zero (mul_ne_zero fe_two_ne_zero (mul_ne_zero hZp hZr)) hd2
    refine ⟨hZne, hTne, ?_, ?_⟩
    · have hnumX : ((p.X / p.Z) * (r.Y / r.Z) + (-(r.X / r.Z)) * (p.Y / p.Z)) *
          (2 * (p.Z * r.Z)) = 2 * (p.X * r.Y - r.X * p.Y) := by
        field_simp
        ring
      rw [edwardsAddX, div_eq_div_iff hZne hd1, hsX, hsZval, ← hnumX]
      ring
    · have hnumY : ((p.Y / p.Z) * (r.Y / r.Z) + (p.X / p.Z) * (-(r.X / r.Z))) *
          (2 * (p.Z * r.Z)) = 2 * (p.Y * r.Y - p.X * r.X) := by
        field_simp
        ring
      rw [edwardsAddY, div_eq_div_iff hTne hd2, hsY, hsTval, ← hnumY]
      ring

/-- Witness for C4 at the identity points. -/
theorem claim_C4_witness :
    ((1 : Fe) ≠ 0) ∧
    ((⟨0, 1, 1, 0⟩ : ge_p3).X * (⟨0, 1, 1, 0⟩ : ge_p3).Y =
      (⟨0, 1, 1, 0⟩ : ge_p3).Z * (⟨0, 1, 1, 0⟩ : ge_p3).T) ∧
    (1 + d * ((0 : Fe) / 1) * (-((0 : Fe) / 1)) * ((1 : Fe) / 1) * ((1 : Fe) / 1) ≠ 0) ∧
    (1 - d * ((0 : Fe) / 1) * (-((0 : Fe) / 1)) * ((1 : Fe) / 1) * ((1 : Fe) / 1) ≠ 0) ∧
    ((x25519_ge_sub ⟨0, 1, 1, 0⟩ (x25519_ge_p3_to_cached ⟨0, 1, 1, 0⟩)).Z ≠ 0 ∧
      (x25519_ge_sub ⟨0, 1, 1, 0⟩ (x25519_ge_p3_to_cached ⟨0, 1, 1, 0⟩)).T ≠ 0 ∧
      (x25519_ge_sub ⟨0, 1, 1, 0⟩ (x25519_ge_p3_to_cached ⟨0, 1, 1, 0⟩)).X /
          (x25519_ge_sub ⟨0, 1, 1, 0⟩ (x25519_ge_p3_to_cached ⟨0, 1, 1, 0⟩)).Z =
        edwardsAddX ((0 : Fe) / 1) ((1 : Fe) / 1) (-((0 : Fe) / 1)) ((1 : Fe) / 1) ∧
      (x25519_ge_sub ⟨0, 1, 1, 0⟩ (x25519_ge_p3_to_cached ⟨0, 1, 1, 0⟩)).Y /
          (x25519_ge_sub ⟨0, 1, 1, 0⟩ (x25519_ge_p3_to_cached ⟨0, 1, 1, 0⟩)).T =
        edwardsAddY ((0 : Fe) / 1) ((1 : Fe) / 1) (-((0 : Fe) / 1)) ((1 : Fe) / 1)) := by
  have hden1 : 1 + d * ((0 : Fe) / 1) * (-((0 : Fe) / 1)) * ((1 : Fe) / 1) * ((1 : Fe) / 1) ≠ 0 := by
    norm_num
  have hden2 : 1 - d * ((0 : Fe) / 1) * (-((0 : Fe) / 1)) * ((1 : Fe) / 1) * ((1 : Fe) / 1) ≠ 0 := by
    norm_num
  exact ⟨one_ne_zero, by norm_num, hden1, hden2,
    claim_C4.2.2.2 ⟨0, 1, 1, 0⟩ ⟨0, 1, 1, 0⟩ one_ne_zero one_ne_zero (by norm_num)
      (by norm_num) hden1 hden2⟩

/-!
## The SPAKE2 protocol layer

Modelled from the spec: the protocol state machine lives in `spake25519.c`,
which is not among the repository sources (only its callers `test.c` and
`spake2.cpp` are).  Sections 4.4 and 6 of the spec are modelled over an
abstract additive commutative group standing for the prime-order subgroup of
the Ed25519 curve, with the hash, the point codec and the three fixed points
`B`, `M`, `N` as parameters.
-/

/-- Modelled from the spec: a party's role; initiator = 0, responder = 1. -/
inductive SpakeRole
  | initiator
  | responder
deriving DecidableEq

/-- Modelled from the spec: the group order
`ℓ = 2^252 + 27742317777372353535851937790883648493`. -/
def ell : ℕ := 2 ^ 252 + 27742317777372353535851937790883648493

/-- Modelled from the spec: the scalar clamp
`byte[0] &= 0xF8; byte[31] &= 0x7F; byte[31] |= 0x40` on the little-endian
value of a 32-byte random tape: clear bits 0-2 and 255, set bit 254. -/
def clamp (t : ℕ) : ℕ := 2 ^ 254 + 8 * (t % 2 ^ 254 / 8)

/-- Little-endian value of a byte string. -/
def leNat (l : List ℕ) : ℕ := l.foldr (fun b acc => b + 256 * acc) 0

/-- The `k`-byte little-endian encoding of `n`. -/
def leBytes (k n : ℕ) : List ℕ := (List.range k).map fun i => n / 256 ^ i % 256

/-- Modelled from the spec: an 8-byte little-endian length prefix. -/
def lenPfx (l : List ℕ) : List ℕ := leBytes 8 l.length ++ l

/-- Modelled from the spec: the protocol environment — the group, the three
fixed points, SHA-512 as a black box, and the point codec. -/
structure SpakeParams (G : Type) where
  B : G
  M : G
  N : G
  hash : List ℕ → List ℕ
  enc : G → List ℕ
  dec : List ℕ → Option G

/-- Modelled from the spec: the per-session state created by `create`. -/
structure SpakeCtx where
  role : SpakeRole
  myName : List ℕ
  theirName : List ℕ
deriving DecidableEq

/-- Modelled from the spec: `create` stores the role and the (length-checked)
names. -/
def spakeCreate (r : SpakeRole) (myName theirName : List ℕ) : Option SpakeCtx :=
  if myName.length ≤ 256 ∧ theirName.length ≤ 256 then
    some ⟨r, myName, theirName⟩
  else none

/-- Modelled from the spec: the password scalar `w`: SHA-512 of the password,
reduced mod `ℓ`. -/
def wScalar {G : Type} (pr : SpakeParams G) (password : List ℕ) : ℕ :=
  leNat (pr.hash password) % ell

/-- Modelled from the spec: the mask added to the own commitment: `M` for the
initiator, `N` for the responder. -/
def maskSelf {G : Type} (pr : SpakeParams G) : SpakeRole → G
  | .initiator => pr.M
  | .responder => pr.N

/-- Modelled from the spec: the mask subtracted from the peer commitment:
`N` for the initiator, `M` for the responder. -/
def maskPeer {G : Type} (pr : SpakeParams G) : SpakeRole → G
  | .initiator => pr.N
  | .responder => pr.M

/-- Modelled from the spec: `generate` — clamp the random tape into
`x_scalar`, derive `w`, and send `X + w·mask_self` with `X = x·B`, encoded to
32 bytes. -/
def spakeGenerate {G : Type} [AddCommGroup G] (pr : SpakeParams G)
    (ctx : SpakeCtx) (password : List ℕ) (tape : ℕ) : List ℕ :=
  pr.enc (clamp tape • pr.B + wScalar pr password • maskSelf pr ctx.role)

/-- Modelled from the spec: `process` — decode the peer message (failing on a
bad point), unmask it with `w·mask_peer`, multiply by `x_scalar` to get the
shared point `K`, build the transcript and hash it into the 64-byte key. -/
def spakeProcess {G : Type} [AddCommGroup G] (pr : SpakeParams G)
    (ctx : SpakeCtx) (password : List ℕ) (tape : ℕ) (peerMsg : List ℕ) :
    Option (List ℕ) :=
  match pr.dec peerMsg with
  | none => none
  | some pt =>
    let w := wScalar pr password
    let x := clamp tape
    let yPeer := pt - w • maskPeer pr ctx.role
    let k := x • yPeer
    let myMsg := spakeGenerate pr ctx password tape
    let wBytes := leBytes 32 w
    let transcript :=
      match ctx.role with
      | .initiator =>
          lenPfx ctx.myName ++ lenPfx ctx.theirName ++ lenPfx myMsg ++
            lenPfx peerMsg ++ lenPfx (pr.enc k) ++ lenPfx wBytes
      | .responder =>
          lenPfx ctx.theirName ++ lenPfx ctx.myName ++ lenPfx peerMsg ++
            lenPfx myMsg ++ lenPfx (pr.enc k) ++ lenPfx wBytes
    some (pr.hash transcript)

/-- **C1 (agreement).**  For every password, pair of names and pair of random
tapes, if the two sessions are created with consistent roles and names, and
the codec round-trips, then each side processing the other's generated 32-byte
message derives the same key, of 64 bytes. -/
theorem claim_C1 {G : Type} [AddCommGroup G] (pr : SpakeParams G)
    (hdec : ∀ g : G, pr.dec (pr.enc g) = some g)
    (hlen : ∀ l : List ℕ, (pr.hash l).length = 64)
    (password na nb : List ℕ) (ta tb : ℕ) (ctxA ctxB : SpakeCtx)
    (hA : spakeCreate SpakeRole.initiator na nb = some ctxA)
    (hB : spakeCreate SpakeRole.responder nb na = some ctxB) :
    ∃ k : List ℕ,
      spakeProcess pr ctxA password ta (spakeGenerate pr ctxB password tb) =
        some k ∧
      spakeProcess pr ctxB password tb (spakeGenerate pr ctxA password ta) =
        some k ∧
      k.length = 64 := by
  rw [spakeCreate] at hA hB
  split_ifs at hA hB
  obtain rfl := Option.some.inj hA
  obtain rfl := Option.some.inj hB
  set w := wScalar pr password with hw
  have hkey : ∀ (x1 x2 : ℕ) (m : G),
      x1 • (x2 • pr.B + w • m - w • m) = (x1 * x2) • pr.B := by
    intro x1 x2 m
    rw [add_sub_cancel_right, smul_smul]
  rw [spakeProcess, spakeProcess, spakeGenerate, spakeGenerate, hdec, hdec]
  simp only [maskSelf, maskPeer, ← hw]
  refine ⟨_, rfl, ?_, hlen _⟩
  rw [hkey (clamp ta) (clamp tb) pr.N, hkey (clamp tb) (clamp ta) pr.M,
    Nat.mul_comm]

/-- Concrete protocol environment over `ZMod 5` for the C1 witness. -/
def wParams : SpakeParams (ZMod 5) where
  B := 1
  M := 2
  N := 3
  hash := fun _ => List.replicate 64 0
  enc := fun g => [g.val]
  dec := fun l =>
    match l with
    | [a] => some ((a : ZMod 5))
    | _ => none

/-- Witness for C1: a concrete run over `ZMod 5` with names `[1]` and `[2]`,
empty password and zero tapes agrees on a 64-byte key. -/
theorem claim_C1_witness :
    (∀ g : ZMod 5, wParams.dec (wParams.enc g) = some g) ∧
    (∀ l : List ℕ, (wParams.hash l).length = 64) ∧
    spakeCreate SpakeRole.initiator [1] [2] = some ⟨SpakeRole.initiator, [1], [2]⟩ ∧
    spakeCreate SpakeRole.responder [2] [1] = some ⟨SpakeRole.responder, [2], [1]⟩ ∧
    ∃ k : List ℕ,
      spakeProcess wParams ⟨SpakeRole.initiator, [1], [2]⟩ [] 0
          (spakeGenerate wParams ⟨SpakeRole.responder, [2], [1]⟩ [] 0) = some k ∧
      spakeProcess wParams ⟨SpakeRole.responder, [2], [1]⟩ [] 0
          (spakeGenerate wParams ⟨SpakeRole.initiator, [1], [2]⟩ [] 0) = some k ∧
      k.length = 64 := by
  have hdec : ∀ g : ZMod 5, wParams.dec (wParams.enc g) = some g := by decide
  have hlen : ∀ l : List ℕ, (wParams.hash l).length = 64 := by
    intro l
    simp [wParams]
  refine ⟨hdec, hlen, by decide, by decide, ?_⟩
  exact claim_C1 wParams hdec hlen [] [1] [2] 0 0 _ _ (by decide) (by decide)

end Spake2Proof
